import Mathlib

/-!
Verification of the `stringify` localization tool (`stringify.py`).

The program synchronizes Android / iOS string resource files with a Google
spreadsheet.  We shallowly embed the pure core of the program: Python strings
are modelled as `List Char` (`Str`), Python `dict` as insertion-ordered
association lists, Python `set` as a duplicate-free list, Python exceptions as
an explicit `Except PyError` result, and the regular expressions used by the
program as specialized greedy backtracking matchers with Python `re.match`
semantics (anchored at the start, only a prefix of the input needs to match,
`.` does not match a newline, greedy pieces try the longest candidate first).
-/

/-- Python `str` is modelled as a list of characters. -/
abbrev Str := List Char

/-- Character list of a Lean string literal (used to write `Str` constants). -/
def chars (s : String) : Str := s.data

/-- The Python whitespace characters stripped by `str.strip()` (ASCII range). -/
def pySpace (c : Char) : Bool :=
  c = ' ' || c = '\t' || c = '\n' || c = '\r' || c = '\x0b' || c = '\x0c'

/-- Python `str.strip()`: remove leading and trailing whitespace. -/
def pyStrip (s : Str) : Str :=
  ((s.dropWhile pySpace).reverse.dropWhile pySpace).reverse

instance {ε : Type _} {γ : Type _} [DecidableEq ε] [DecidableEq γ] :
    DecidableEq (Except ε γ) := fun a b =>
  match a, b with
  | .error e, .error f =>
    if h : e = f then isTrue (by rw [h]) else isFalse (fun hh => by cases hh; exact h rfl)
  | .ok x, .ok y =>
    if h : x = y then isTrue (by rw [h]) else isFalse (fun hh => by cases hh; exact h rfl)
  | .error _, .ok _ => isFalse (fun hh => by cases hh)
  | .ok _, .error _ => isFalse (fun hh => by cases hh)

/-- Exceptions raised by the program (or by the Python runtime on its behalf). -/
inductive PyError where
  /-- `NotFoundException`, the exception class declared by `stringify.py`. -/
  | notFoundException
  /-- `UnboundLocalError`: a function reads a local variable never assigned. -/
  | unboundLocalError
  /-- `AttributeError`: attribute access on `None`. -/
  | attributeError
deriving DecidableEq, Repr

variable {α : Type _} {β : Type _} [DecidableEq α]

/-- Lookup in an insertion-ordered association list (Python `dict.get`). -/
def assocLookup : List (α × β) → α → Option β
  | [], _ => none
  | (k, v) :: rest, key => if k = key then some v else assocLookup rest key

/-- Python `dict.update({key: value})`: replace the value of an existing key
in place (keeping its position), otherwise append the new key at the end. -/
def assocUpdate : List (α × β) → α → β → List (α × β)
  | [], key, value => [(key, value)]
  | (k, v) :: rest, key, value =>
    if k = key then (key, value) :: rest else (k, v) :: assocUpdate rest key value

/-- Python `set.add`: the set is modelled as a duplicate-free list, insertion
ordered (the order is irrelevant: the program always sorts before use). -/
def setAdd (s : List α) (x : α) : List α :=
  if x ∈ s then s else s ++ [x]

theorem assocLookup_update_self (l : List (α × β)) (k : α) (v : β) :
    assocLookup (assocUpdate l k v) k = some v := by
  induction l with
  | nil => simp [assocUpdate, assocLookup]
  | cons p rest ih =>
    by_cases h : p.1 = k
    · simp [assocUpdate, assocLookup, h]
    · simp [assocUpdate, assocLookup, h, ih]

theorem assocLookup_update_ne (l : List (α × β)) (k k' : α) (v : β) (hne : k ≠ k') :
    assocLookup (assocUpdate l k v) k' = assocLookup l k' := by
  induction l with
  | nil => simp [assocUpdate, assocLookup, hne]
  | cons p rest ih =>
    by_cases h : p.1 = k
    · simp [assocUpdate, assocLookup, h, hne]
    · simp [assocUpdate, assocLookup, h, ih]

theorem assocUpdate_keys (l : List (α × β)) (k : α) (v : β) :
    (assocUpdate l k v).map Prod.fst =
      if k ∈ l.map Prod.fst then l.map Prod.fst else l.map Prod.fst ++ [k] := by
  induction l with
  | nil => simp [assocUpdate]
  | cons p rest ih =>
    by_cases h : p.1 = k
    · simp [assocUpdate, h]
    · have hiff : k ∈ p.1 :: rest.map Prod.fst ↔ k ∈ rest.map Prod.fst := by
        constructor
        · intro hm
          rcases List.mem_cons.mp hm with h1 | h1
          · exact absurd h1.symm h
          · exact h1
        · exact fun hm => List.mem_cons_of_mem _ hm
      by_cases hm : k ∈ rest.map Prod.fst <;>
        simp [assocUpdate, h, ih, hm, hiff]

theorem assocLookup_eq_none (l : List (α × β)) (k : α) :
    assocLookup l k = none ↔ k ∉ l.map Prod.fst := by
  induction l with
  | nil => simp [assocLookup]
  | cons p rest ih =>
    by_cases h : p.1 = k
    · simp [assocLookup, h]
    · have h2 : assocLookup (p :: rest) k = assocLookup rest k := by
        simp [assocLookup, h]
      rw [h2, ih, List.map_cons]
      constructor
      · intro hn hm
        rcases List.mem_cons.mp hm with h1 | h1
        · exact h h1.symm
        · exact hn h1
      · intro hn hm
        exact hn (List.mem_cons_of_mem _ hm)

/-! ## The translation store (`TranslationRow`, `Dictionary`)

`stringify.py` lines 30–63.  A `TranslationRow` holds one localization key and
a `dict` mapping language code to translated text; `Dictionary` is an
insertion-ordered `dict` from key to row plus a `set` of language codes. -/

structure TranslationRow where
  key : Str
  translations : List (Str × Str)
deriving DecidableEq, Repr

/-- `TranslationRow.add_translation`: `self.translations.update({lang: value})`. -/
def TranslationRow.add_translation (r : TranslationRow) (lang value : Str) :
    TranslationRow :=
  { r with translations := assocUpdate r.translations lang value }

/-- `TranslationRow.get_translation`: `self.translations.get(lang)` (`None`
when the language is absent). -/
def TranslationRow.get_translation (r : TranslationRow) (lang : Str) : Option Str :=
  assocLookup r.translations lang

structure Dictionary where
  dictionary : List (Str × TranslationRow)
  languages : List Str
deriving DecidableEq, Repr

def Dictionary.empty : Dictionary := ⟨[], []⟩

/-- `Dictionary.add_translation(key, lang, word)`: register the language, then
fetch the row for `key` (creating and inserting a fresh one if absent) and add
the translation to it.  Python mutates the row object in place; since the
`dict` holds a reference, this equals replacing the entry at its position. -/
def Dictionary.add_translation (d : Dictionary) (key lang word : Str) : Dictionary :=
  let languages := setAdd d.languages lang
  let translation_row :=
    match assocLookup d.dictionary key with
    | none => TranslationRow.mk key []
    | some r => r
  ⟨assocUpdate d.dictionary key (translation_row.add_translation lang word), languages⟩

/-- `Dictionary.get_translation(key, lang)` is
`self.dictionary.get(key).get_translation(lang)`: when `key` was never
inserted, `dict.get` yields `None` and the attribute access on it raises
`AttributeError`; otherwise the row's lookup result (possibly `None`). -/
def Dictionary.get_translation (d : Dictionary) (key lang : Str) :
    Except PyError (Option Str) :=
  match assocLookup d.dictionary key with
  | none => .error .attributeError
  | some r => .ok (r.get_translation lang)

/-- `Dictionary.keys()`: the keys in first-insertion order. -/
def Dictionary.keys (d : Dictionary) : List Str := d.dictionary.map Prod.fst

/-- One `add_translation` call: (key, language, value). -/
abbrev TranslationOp := Str × Str × Str

/-- Run a sequence of `add_translation` calls from a given store. -/
def applyOpsFrom (d : Dictionary) (ops : List TranslationOp) : Dictionary :=
  ops.foldl (fun acc op => acc.add_translation op.1 op.2.1 op.2.2) d

/-- Run a sequence of `add_translation` calls from the empty store. -/
def applyOps (ops : List TranslationOp) : Dictionary :=
  applyOpsFrom Dictionary.empty ops

/-! ### Association-list and store lemmas -/

theorem assocLookup_mem (l : List (α × β)) (k : α) (r : β)
    (h : assocLookup l k = some r) : (k, r) ∈ l := by
  induction l with
  | nil => simp [assocLookup] at h
  | cons p rest ih =>
    by_cases hp : p.1 = k
    · simp [assocLookup, hp] at h
      have : p = (k, r) := by
        cases p
        simp_all
      exact this ▸ List.mem_cons_self _ _
    · simp [assocLookup, hp] at h
      exact List.mem_cons_of_mem _ (ih h)

theorem mem_keys_iff_lookup (l : List (α × β)) (k : α) :
    k ∈ l.map Prod.fst ↔ ∃ r, assocLookup l k = some r := by
  constructor
  · intro hm
    cases hl : assocLookup l k with
    | none => exact absurd hm ((assocLookup_eq_none l k).mp hl)
    | some r => exact ⟨r, rfl⟩
  · rintro ⟨r, hr⟩
    by_contra hn
    rw [← assocLookup_eq_none l k] at hn
    rw [hn] at hr
    cases hr

theorem mem_assocUpdate_of_mem_ne (l : List (α × β)) (k k' : α) (v r : β)
    (hm : (k', r) ∈ l) (hne : k' ≠ k) : (k', r) ∈ assocUpdate l k v := by
  induction l with
  | nil => cases hm
  | cons p rest ih =>
    by_cases hp : p.1 = k
    · rcases List.mem_cons.mp hm with h1 | h1
      · exact absurd ((congrArg Prod.fst h1).trans hp) hne
      · simp only [assocUpdate, hp, if_pos rfl]
        exact List.mem_cons_of_mem _ h1
    · simp only [assocUpdate, if_neg hp]
      rcases List.mem_cons.mp hm with h1 | h1
      · exact h1 ▸ List.mem_cons_self _ _
      · exact List.mem_cons_of_mem _ (ih h1)

theorem mem_of_mem_assocUpdate (l : List (α × β)) (k : α) (v : β) (p : α × β)
    (hm : p ∈ assocUpdate l k v) : p = (k, v) ∨ p ∈ l := by
  induction l with
  | nil => simpa [assocUpdate] using hm
  | cons q rest ih =>
    by_cases hq : q.1 = k
    · simp only [assocUpdate, hq, if_pos rfl] at hm
      rcases List.mem_cons.mp hm with h1 | h1
      · exact Or.inl h1
      · exact Or.inr (List.mem_cons_of_mem _ h1)
    · simp only [assocUpdate, if_neg hq] at hm
      rcases List.mem_cons.mp hm with h1 | h1
      · exact Or.inr (h1 ▸ List.mem_cons_self _ _)
      · rcases ih h1 with h2 | h2
        · exact Or.inl h2
        · exact Or.inr (List.mem_cons_of_mem _ h2)

theorem keys_subset_assocUpdate (l : List (α × β)) (k a : α) (v : β)
    (ha : a ∈ l.map Prod.fst) : a ∈ (assocUpdate l k v).map Prod.fst := by
  rw [assocUpdate_keys]
  by_cases hm : k ∈ l.map Prod.fst
  · simpa [hm] using ha
  · rw [if_neg hm]
    exact List.mem_append_left _ ha

theorem self_mem_keys_assocUpdate (l : List (α × β)) (k : α) (v : β) :
    k ∈ (assocUpdate l k v).map Prod.fst := by
  rw [mem_keys_iff_lookup]
  exact ⟨v, assocLookup_update_self l k v⟩

theorem assocLookup_of_mem_nodup (l : List (α × β)) (k : α) (r : β)
    (hnd : (l.map Prod.fst).Nodup) (hm : (k, r) ∈ l) :
    assocLookup l k = some r := by
  induction l with
  | nil => cases hm
  | cons p rest ih =>
    rw [List.map_cons, List.nodup_cons] at hnd
    rcases List.mem_cons.mp hm with h1 | h1
    · simp [assocLookup, ← h1]
    · have hne : p.1 ≠ k := by
        intro he
        exact hnd.1 (he ▸ (List.mem_map_of_mem Prod.fst h1))
      simp [assocLookup, hne, ih hnd.2 h1]

theorem nodup_keys_assocUpdate (l : List (α × β)) (k : α) (v : β)
    (hnd : (l.map Prod.fst).Nodup) : ((assocUpdate l k v).map Prod.fst).Nodup := by
  rw [assocUpdate_keys]
  by_cases hm : k ∈ l.map Prod.fst
  · simpa [hm] using hnd
  · rw [if_neg hm]
    rw [List.nodup_append]
    exact ⟨hnd, List.nodup_singleton k, by simpa using hm⟩

/-! ### The store well-formedness invariant (claim C3) -/

/-- Boolean check: the keys of the entry list are pairwise distinct. -/
def nodupKeys : List (Str × TranslationRow) → Bool
  | [] => true
  | (k, _) :: rest => !(decide (k ∈ rest.map Prod.fst)) && nodupKeys rest

/-- Boolean well-formedness check of a store: every language in the language
set occurs in some row, every language of every row is in the language set,
and no key occurs twice. -/
def invariantCheck (d : Dictionary) : Bool :=
  d.languages.all
      (fun l => d.dictionary.any (fun p => decide (l ∈ p.2.translations.map Prod.fst))) &&
    d.dictionary.all
      (fun p => p.2.translations.all (fun t => decide (t.1 ∈ d.languages))) &&
    nodupKeys d.dictionary

theorem nodupKeys_iff (l : List (Str × TranslationRow)) :
    nodupKeys l = true ↔ (l.map Prod.fst).Nodup := by
  induction l with
  | nil => simp [nodupKeys]
  | cons p rest ih =>
    cases p with
    | mk k r =>
      rw [List.map_cons, List.nodup_cons, ← ih]
      show (!(decide (k ∈ rest.map Prod.fst)) && nodupKeys rest) = true ↔ _
      rw [Bool.and_eq_true, Bool.not_eq_true', decide_eq_false_iff_not]

/-- The propositional form of `invariantCheck`. -/
theorem invariantCheck_iff (d : Dictionary) :
    invariantCheck d = true ↔
      ((∀ l ∈ d.languages, ∃ p ∈ d.dictionary, l ∈ p.2.translations.map Prod.fst) ∧
        (∀ p ∈ d.dictionary, ∀ t ∈ p.2.translations, t.1 ∈ d.languages) ∧
        (d.dictionary.map Prod.fst).Nodup) := by
  simp only [invariantCheck, Bool.and_eq_true, List.all_eq_true, List.any_eq_true,
    decide_eq_true_eq, nodupKeys_iff, and_assoc]

theorem invariantCheck_empty : invariantCheck Dictionary.empty = true := by
  decide

theorem invariantCheck_add (d : Dictionary) (k l v : Str)
    (h : invariantCheck d = true) :
    invariantCheck (d.add_translation k l v) = true := by
  rw [invariantCheck_iff] at h ⊢
  obtain ⟨h1, h2, h3⟩ := h
  set row0 : TranslationRow :=
    (match assocLookup d.dictionary k with
      | none => TranslationRow.mk k []
      | some r => r) with hrow0
  have hdict : (d.add_translation k l v).dictionary =
      assocUpdate d.dictionary k (row0.add_translation l v) := rfl
  have hlangs : (d.add_translation k l v).languages = setAdd d.languages l := rfl
  have hrow0trans : ∀ t ∈ row0.translations, t.1 ∈ d.languages := by
    intro t ht
    cases hl : assocLookup d.dictionary k with
    | none =>
      rw [hrow0, hl] at ht
      cases ht
    | some r =>
      rw [hrow0, hl] at ht
      exact h2 (k, r) (assocLookup_mem _ _ _ hl) t ht
  refine ⟨?_, ?_, ?_⟩
  · intro l' hl'
    rw [hlangs] at hl'
    rw [hdict]
    by_cases hll : l' = l
    · subst hll
      refine ⟨(k, row0.add_translation l' v), ?_, ?_⟩
      · exact assocLookup_mem _ _ _ (assocLookup_update_self _ _ _)
      · exact self_mem_keys_assocUpdate _ _ _
    · have hl'' : l' ∈ d.languages := by
        by_cases hmem : l ∈ d.languages
        · simpa [setAdd, hmem] using hl'
        · have h5 : l' ∈ d.languages ∨ l' = l := by
            simpa [setAdd, hmem] using hl'
          rcases h5 with hc | hc
          · exact hc
          · exact absurd hc hll
      obtain ⟨p, hp, hpl⟩ := h1 l' hl''
      by_cases hpk : p.1 = k
      · refine ⟨(k, row0.add_translation l v), ?_, ?_⟩
        · exact assocLookup_mem _ _ _ (assocLookup_update_self _ _ _)
        · have hlook : assocLookup d.dictionary k = some p.2 := by
            have hmem2 : (k, p.2) ∈ d.dictionary := by
              rw [← hpk]
              simpa using hp
            exact assocLookup_of_mem_nodup _ _ _ h3 hmem2
          have : row0 = p.2 := by rw [hrow0, hlook]
          rw [TranslationRow.add_translation, this]
          exact keys_subset_assocUpdate _ _ _ _ hpl
      · refine ⟨p, ?_, hpl⟩
        have : (p.1, p.2) ∈ d.dictionary := by simpa using hp
        have := mem_assocUpdate_of_mem_ne d.dictionary k p.1 (row0.add_translation l v) p.2 this hpk
        simpa using this
  · intro p hp t ht
    rw [hdict] at hp
    rw [hlangs]
    have hsub : ∀ x ∈ d.languages, x ∈ setAdd d.languages l := by
      intro x hx
      by_cases hmem : l ∈ d.languages
      · simpa [setAdd, hmem] using hx
      · simp only [setAdd, if_neg hmem]
        exact List.mem_append_left _ hx
    rcases mem_of_mem_assocUpdate _ _ _ _ hp with h4 | h4
    · rw [h4] at ht
      simp only [TranslationRow.add_translation] at ht
      rcases mem_of_mem_assocUpdate _ _ _ _ ht with h5 | h5
      · rw [h5]
        by_cases hmem : l ∈ d.languages
        · simp [setAdd, hmem]
        · simp only [setAdd, if_neg hmem]
          exact List.mem_append_right _ (List.mem_singleton.mpr rfl)
      · exact hsub _ (hrow0trans t h5)
    · exact hsub _ (h2 p h4 t ht)
  · rw [hdict]
    exact nodup_keys_assocUpdate _ _ _ h3

/-- The invariant holds after any sequence of insertions from any invariant
start state. -/
theorem invariantCheck_applyOpsFrom (d : Dictionary) (ops : List TranslationOp)
    (h : invariantCheck d = true) : invariantCheck (applyOpsFrom d ops) = true := by
  induction ops generalizing d with
  | nil => exact h
  | cons op rest ih =>
    exact ih _ (invariantCheck_add _ _ _ _ h)

theorem invariantCheck_applyOps (ops : List TranslationOp) :
    invariantCheck (applyOps ops) = true :=
  invariantCheck_applyOpsFrom _ _ invariantCheck_empty

/-- Keys after an insertion: an existing key keeps the key list unchanged, a
new key is appended at the end. -/
theorem keys_add_translation (d : Dictionary) (k l v : Str) :
    (d.add_translation k l v).keys =
      if k ∈ d.keys then d.keys else d.keys ++ [k] := by
  have : (d.add_translation k l v).dictionary =
      assocUpdate d.dictionary k
        ((match assocLookup d.dictionary k with
          | none => TranslationRow.mk k []
          | some r => r).add_translation l v) := rfl
  simp only [Dictionary.keys]
  rw [this, assocUpdate_keys]
  by_cases hm : k ∈ d.dictionary.map Prod.fst
  · rw [if_pos hm, if_pos hm]
  · rw [if_neg hm, if_neg hm]

/-! ### Insert-then-lookup (claims C8, C9) -/

theorem get_translation_add_self (d : Dictionary) (k l v : Str) :
    (d.add_translation k l v).get_translation k l = .ok (some v) := by
  have h1 : assocLookup (d.add_translation k l v).dictionary k
      = some ((match assocLookup d.dictionary k with
               | none => TranslationRow.mk k []
               | some r => r).add_translation l v) := assocLookup_update_self _ _ _
  simp only [Dictionary.get_translation, h1, TranslationRow.get_translation,
    TranslationRow.add_translation, assocLookup_update_self]

theorem get_translation_add_other (d : Dictionary) (k l k' l' v' : Str) (w : Option Str)
    (hgot : d.get_translation k l = .ok w)
    (hne : ¬(k' = k ∧ l' = l)) :
    (d.add_translation k' l' v').get_translation k l = .ok w := by
  cases hl : assocLookup d.dictionary k with
  | none =>
    rw [Dictionary.get_translation, hl] at hgot
    cases hgot
  | some r =>
    rw [Dictionary.get_translation, hl] at hgot
    by_cases hk : k' = k
    · subst hk
      have hll : l' ≠ l := fun he => hne ⟨rfl, he⟩
      have hrow : (match assocLookup d.dictionary k' with
                   | none => TranslationRow.mk k' []
                   | some r0 => r0) = r := by rw [hl]
      have h1 : assocLookup (d.add_translation k' l' v').dictionary k'
          = some (r.add_translation l' v') := by
        have h0 : assocLookup (d.add_translation k' l' v').dictionary k'
            = some ((match assocLookup d.dictionary k' with
                     | none => TranslationRow.mk k' []
                     | some r0 => r0).add_translation l' v') :=
          assocLookup_update_self _ _ _
        rw [h0, hrow]
      rw [Dictionary.get_translation, h1]
      rw [← hgot]
      simp only [TranslationRow.get_translation, TranslationRow.add_translation]
      exact congrArg Except.ok (assocLookup_update_ne _ _ _ _ hll)
    · have h1 : assocLookup (d.add_translation k' l' v').dictionary k
          = assocLookup d.dictionary k := assocLookup_update_ne _ _ _ _ hk
      rw [Dictionary.get_translation, h1, hl, hgot]

theorem get_translation_applyOpsFrom (d : Dictionary) (k l : Str) (w : Option Str)
    (ops : List TranslationOp)
    (hgot : d.get_translation k l = .ok w)
    (h : ∀ op ∈ ops, ¬(op.1 = k ∧ op.2.1 = l)) :
    (applyOpsFrom d ops).get_translation k l = .ok w := by
  induction ops generalizing d with
  | nil => exact hgot
  | cons op rest ih =>
    refine ih _ ?_ (fun o ho => h o (List.mem_cons_of_mem _ ho))
    exact get_translation_add_other d k l op.1 op.2.1 op.2.2 w hgot
      (h op (List.mem_cons_self _ _))

/-- C3: starting from the empty store, after every sequence of
`add_translation(key, lang, value)` operations the language set of the store
coincides with the set of language codes appearing in the rows, no key appears
in more than one row, and inserting an already-present key leaves the key list
unchanged (the existing row is augmented) while a new key is appended. -/
theorem store_invariant_claim (ops : List TranslationOp) (k l v : Str) :
    invariantCheck (applyOps ops) = true ∧
      ((applyOps ops).add_translation k l v).keys =
        (if k ∈ (applyOps ops).keys then (applyOps ops).keys
         else (applyOps ops).keys ++ [k]) :=
  ⟨invariantCheck_applyOps ops, keys_add_translation _ k l v⟩

/-- C8: for every store, non-empty key `k`, language `l` and value `v`, after
`add_translation(k, l, v)` followed by any operations that never insert for
the same key and language again, `get_translation(k, l)` returns `v`. -/
theorem add_then_get_claim (d : Dictionary) (k l v : Str) (ops : List TranslationOp)
    (_hk : k ≠ [])
    (hops : ∀ op ∈ ops, ¬(op.1 = k ∧ op.2.1 = l)) :
    (applyOpsFrom (d.add_translation k l v) ops).get_translation k l
      = .ok (some v) :=
  get_translation_applyOpsFrom _ k l (some v) ops (get_translation_add_self d k l v) hops

/-- Witness for C8 at a concrete store and operation sequence. -/
theorem add_then_get_claim_witness :
    (applyOpsFrom
        (Dictionary.empty.add_translation (chars "greeting") (chars "en") (chars "Hello"))
        [(chars "title", chars "en", chars "T"),
         (chars "greeting", chars "fr", chars "Bonjour")]).get_translation
      (chars "greeting") (chars "en") = .ok (some (chars "Hello")) :=
  add_then_get_claim Dictionary.empty (chars "greeting") (chars "en") (chars "Hello")
    [(chars "title", chars "en", chars "T"),
     (chars "greeting", chars "fr", chars "Bonjour")]
    (by decide) (by decide)

/-- C9 (amended): looking up a key never inserted raises `AttributeError` (the
attribute access on `None`), not the spec's `KeyNotFound`; for an inserted key
with no entry for the language the result is `None`, which is distinguishable
from the empty string. -/
theorem get_translation_failure_claim (d : Dictionary) (k l : Str) :
    (k ∉ d.keys → d.get_translation k l = .error .attributeError) ∧
    (∀ r, assocLookup d.dictionary k = some r → l ∉ r.translations.map Prod.fst →
      d.get_translation k l = .ok none) ∧
    ((.ok none : Except PyError (Option Str)) ≠ .ok (some (chars ""))) := by
  refine ⟨?_, ?_, by decide⟩
  · intro hk
    have hnone : assocLookup d.dictionary k = none := (assocLookup_eq_none _ _).mpr hk
    simp only [Dictionary.get_translation, hnone]
  · intro r hr hl
    have hnone : assocLookup r.translations l = none := (assocLookup_eq_none _ _).mpr hl
    simp only [Dictionary.get_translation, hr, TranslationRow.get_translation, hnone]

/-- Witness for C9 at concrete stores: an unknown key raises `AttributeError`;
a known key with a missing language yields `None`. -/
theorem get_translation_failure_claim_witness :
    (applyOps [(chars "k", chars "en", chars "v")]).get_translation
        (chars "x") (chars "en") = .error .attributeError ∧
    (applyOps [(chars "k", chars "en", chars "v")]).get_translation
        (chars "k") (chars "fr") = .ok none := by
  constructor
  · exact (get_translation_failure_claim
      (applyOps [(chars "k", chars "en", chars "v")]) (chars "x") (chars "en")).1
      (by decide)
  · exact (get_translation_failure_claim
      (applyOps [(chars "k", chars "en", chars "v")]) (chars "k") (chars "fr")).2.1
      (TranslationRow.mk (chars "k") [(chars "en", chars "v")]) (by decide) (by decide)

/-- Counterexample to C9 as stated: on a key that was never inserted the
lookup does not fail with the `NotFoundException` error the claim names; it
raises `AttributeError`. -/
theorem get_translation_keynotfound_cx :
    Dictionary.empty.get_translation (chars "missing") (chars "en")
        ≠ .error .notFoundException ∧
    Dictionary.empty.get_translation (chars "missing") (chars "en")
        = .error .attributeError := by
  decide

/-! ## Reading the spreadsheet grid (`read_row`, `read_strings`, claim C2)

`stringify.py` lines 399–426.  A data row of the sheet is modelled as the list
of its cell values left to right (`sheet.cell(row, column).value`, column
1-based); `sheet` itself is the list of data rows starting at spreadsheet row 2
(`read_strings` starts its loop at `row = 2`; row 1 is the header).  Cells
beyond the rectangular grid read as the empty string (`getD`). -/

/-- The `for column in range(1, langs_count + 2)` loop of `read_row`: append
each cell, but return the accumulated (still empty) list as soon as the key
cell — column 1, the first iteration — is blank after stripping. -/
def read_row_go (r : List Str) : List Nat → List Str → List Str
  | [], acc => acc
  | column :: rest, acc =>
    let cell_value := r.getD (column - 1) []
    if (pyStrip cell_value).length = 0 ∧ column = 1 then acc
    else read_row_go r rest (acc ++ [cell_value])

/-- `read_row(sheet, row, langs_count)` for the given data row. -/
def read_row (r : List Str) (langs_count : Nat) : List Str :=
  read_row_go r (List.range' 1 (langs_count + 1)) []

/-- The `while True` loop of `read_strings`, over the remaining data rows and
the `empty_row` flag.  Every row past the end of the grid is all-blank, so
`read_row` yields `[]` there: with the flag set the loop returns at once, and
otherwise it appends one `[]` (Python appends `row_data` even when it is the
first blank row) and returns on the next iteration. -/
def read_strings_from (langs_count : Nat) : List (List Str) → Bool → List (List Str)
  | [], empty_row => if empty_row then [] else [[]]
  | r :: rest, empty_row =>
    let row_data := read_row r langs_count
    if row_data.length = 0 then
      if empty_row then []
      else row_data :: read_strings_from langs_count rest true
    else row_data :: read_strings_from langs_count rest false

/-- `read_strings(sheet, langs_count)`: start at the first data row with the
`empty_row` flag cleared. -/
def read_strings (sheet : List (List Str)) (langs_count : Nat) : List (List Str) :=
  read_strings_from langs_count sheet false

theorem read_strings_from_nonblank (n : Nat) (r : List Str) (rest : List (List Str))
    (b : Bool) (h : read_row r n ≠ []) :
    read_strings_from n (r :: rest) b = read_row r n :: read_strings_from n rest false := by
  have hlen : ¬(read_row r n).length = 0 := by
    intro h0
    exact h (List.length_eq_zero.mp h0)
  simp [read_strings_from, hlen]

theorem read_strings_from_blank_false (n : Nat) (r : List Str) (rest : List (List Str))
    (h : read_row r n = []) :
    read_strings_from n (r :: rest) false = [] :: read_strings_from n rest true := by
  simp [read_strings_from, h]

theorem read_strings_from_blank_true (n : Nat) (r : List Str) (rest : List (List Str))
    (h : read_row r n = []) :
    read_strings_from n (r :: rest) true = [] := by
  simp [read_strings_from, h]

theorem read_strings_from_append (n : Nat) (A rest : List (List Str))
    (hA : ∀ r ∈ A, read_row r n ≠ []) :
    read_strings_from n (A ++ rest) false
      = A.map (fun r => read_row r n) ++ read_strings_from n rest false := by
  induction A with
  | nil => rfl
  | cons r A' ih =>
    rw [List.cons_append,
      read_strings_from_nonblank n r _ false (hA r (List.mem_cons_self _ _)),
      List.map_cons, List.cons_append,
      ih (fun q hq => hA q (List.mem_cons_of_mem _ hq))]

/-- C2 (amended): a single blank-key row does not terminate the read (it
contributes one empty row to the output and sets the flag), while two
consecutive blank-key rows do: the scan consumes the first of the pair
(appending one empty row) and returns upon the second, so nothing at or after
the second of the pair is read into the result. -/
theorem read_strings_termination_claim (n : Nat) (A B C : List (List Str))
    (bk1 bk2 bk3 : List Str)
    (hA : ∀ r ∈ A, read_row r n ≠ []) (hB : ∀ r ∈ B, read_row r n ≠ [])
    (hBne : B ≠ [])
    (h1 : read_row bk1 n = []) (h2 : read_row bk2 n = []) (h3 : read_row bk3 n = []) :
    read_strings (A ++ (bk1 :: (B ++ (bk2 :: bk3 :: C)))) n
      = A.map (fun r => read_row r n) ++ [[]] ++ B.map (fun r => read_row r n) ++ [[]] := by
  cases B with
  | nil => exact absurd rfl hBne
  | cons b B' =>
    rw [read_strings, read_strings_from_append n A _ hA,
      read_strings_from_blank_false n bk1 _ h1, List.cons_append,
      read_strings_from_nonblank n b _ true (hB b (List.mem_cons_self _ _)),
      read_strings_from_append n B' _ (fun q hq => hB q (List.mem_cons_of_mem _ hq)),
      read_strings_from_blank_false n bk2 _ h2,
      read_strings_from_blank_true n bk3 _ h3]
    simp

/-- Witness for C2 at the grid of the claim: the scan yields the rows for keys
"a" and "b" plus one empty row per blank-key row read before termination. -/
theorem read_strings_termination_claim_witness :
    read_strings [[chars "a", chars "1"], [chars "", chars ""],
        [chars "b", chars "2"], [chars "", chars ""], [chars "", chars ""]] 1
      = [[chars "a", chars "1"], [], [chars "b", chars "2"], []] := by
  have h := read_strings_termination_claim 1 [[chars "a", chars "1"]]
    [[chars "b", chars "2"]] [] [chars "", chars ""] [chars "", chars ""]
    [chars "", chars ""] (by decide) (by decide) (by decide) (by decide) (by decide)
    (by decide)
  exact h.trans (by decide)

/-- Counterexample to C2 as stated: the read does not yield only the rows for
keys "a" and "b" — each blank-key row read before termination contributes an
empty row to the returned list as well. -/
theorem read_strings_only_keyed_rows_cx :
    read_strings [[chars "a", chars "1"], [chars "", chars ""],
        [chars "b", chars "2"], [chars "", chars ""], [chars "", chars ""]] 1
      ≠ [[chars "a", chars "1"], [chars "b", chars "2"]] := by
  decide

/-! ## Writing the store to the spreadsheet (`GoogleDocsHandler.write`, claim C4)

`stringify.py` lines 116–143.  The network side is abstracted to the sequence
of `update_cell(row, column, value)` calls the method issues (after clearing
the sheet); the written value is `some s` for a Python string and `none` for
Python `None`. -/

/-- One `update_cell` call: (row, column, value). -/
abbrev Cell := Nat × Nat × Option Str

/-- Lexicographic (code-point) comparison of Python strings, the order used by
Python `sorted` on `str`. -/
def lexLe : Str → Str → Bool
  | [], _ => true
  | _ :: _, [] => false
  | a :: as, b :: bs => if a < b then true else if b < a then false else lexLe as bs

def pySortInsert (x : Str) : List Str → List Str
  | [] => [x]
  | y :: ys => if lexLe x y then x :: y :: ys else y :: pySortInsert x ys

/-- Python `sorted` on a collection of strings (ascending lexicographic);
insertion sort, which agrees with any sort on the duplicate-free language
sets the program sorts. -/
def pySorted : List Str → List Str
  | [] => []
  | x :: xs => pySortInsert x (pySorted xs)

/-- The language-column cells of one data row: for each sorted language at
index `i`, `update_cell(row, i + 2, dictionary.get_translation(key, lang))`. -/
def GoogleDocsHandler.write_row_cells (d : Dictionary) (langs : List Str)
    (row : Nat) (key : Str) : Except PyError (List Cell) := do
  let vals ← langs.enum.mapM (fun p => do
    let tv ← d.get_translation key p.2
    pure ((row, p.1 + 2, tv) : Cell))
  pure ((row, 1, some key) :: vals)

/-- The data-row loop: `row` starts at 2 and advances by one per key; each key
writes its key cell at column 1 and then its language cells. -/
def GoogleDocsHandler.write_rows (d : Dictionary) (langs : List Str) :
    Nat → List Str → Except PyError (List Cell)
  | _, [] => pure []
  | row, k :: ks => do
    let c ← GoogleDocsHandler.write_row_cells d langs row k
    let rest ← GoogleDocsHandler.write_rows d langs (row + 1) ks
    pure (c ++ rest)

/-- `GoogleDocsHandler.write(name, dictionary)`, as the list of issued
`update_cell` calls: header row 1 holds the sorted languages in columns
2..N+1 (no cell is written at (1,1)), then the data rows. -/
def GoogleDocsHandler.write (d : Dictionary) : Except PyError (List Cell) :=
  let langs := pySorted d.languages
  do
    let body ← GoogleDocsHandler.write_rows d langs 2 d.keys
    pure (langs.enum.map (fun p => ((1, p.1 + 2, some p.2) : Cell)) ++ body)

/-- Closed-form layout of the data-row cells, from the spec's wording: keys in
insertion order from row 2, each language's value in that language's sorted
column, a missing translation giving a `None` cell. -/
def entriesCells (langs : List Str) : Nat → List (Str × TranslationRow) → List Cell
  | _, [] => []
  | row, e :: es =>
    ((row, 1, some e.1) ::
        langs.enum.map (fun p => ((row, p.1 + 2, assocLookup e.2.translations p.2) : Cell)))
      ++ entriesCells langs (row + 1) es

/-- Closed-form layout of the whole write, from the spec's wording. -/
def grid_cells_spec (d : Dictionary) : List Cell :=
  (pySorted d.languages).enum.map (fun p => ((1, p.1 + 2, some p.2) : Cell)) ++
    entriesCells (pySorted d.languages) 2 d.dictionary

theorem mapM_ok {γ δ : Type} (f : γ → Except PyError δ) (g : γ → δ) (l : List γ)
    (h : ∀ x ∈ l, f x = .ok (g x)) : l.mapM f = .ok (l.map g) := by
  induction l with
  | nil => rfl
  | cons x xs ih =>
    rw [List.mapM_cons, h x (List.mem_cons_self _ _),
      ih (fun y hy => h y (List.mem_cons_of_mem _ hy))]
    rfl

theorem write_row_cells_spec (d : Dictionary) (langs : List Str) (row : Nat)
    (key : Str) (r : TranslationRow)
    (hlook : assocLookup d.dictionary key = some r) :
    GoogleDocsHandler.write_row_cells d langs row key
      = .ok ((row, 1, some key) ::
          langs.enum.map (fun p => ((row, p.1 + 2, assocLookup r.translations p.2) : Cell))) := by
  have hget : ∀ lang, d.get_translation key lang = .ok (assocLookup r.translations lang) := by
    intro lang
    simp only [Dictionary.get_translation, hlook, TranslationRow.get_translation]
  have hmap : langs.enum.mapM
      (fun p => do
        let tv ← d.get_translation key p.2
        pure ((row, p.1 + 2, tv) : Cell))
      = .ok (langs.enum.map
          (fun p => ((row, p.1 + 2, assocLookup r.translations p.2) : Cell))) := by
    refine mapM_ok _ _ _ (fun p _ => ?_)
    rw [hget p.2]
    rfl
  rw [GoogleDocsHandler.write_row_cells, hmap]
  rfl

theorem write_rows_spec (d : Dictionary) (langs : List Str) (row0 : Nat)
    (entries : List (Str × TranslationRow))
    (hsub : ∀ e ∈ entries, assocLookup d.dictionary e.1 = some e.2) :
    GoogleDocsHandler.write_rows d langs row0 (entries.map Prod.fst)
      = .ok (entriesCells langs row0 entries) := by
  induction entries generalizing row0 with
  | nil => rfl
  | cons e es ih =>
    rw [List.map_cons, GoogleDocsHandler.write_rows,
      write_row_cells_spec d langs row0 e.1 e.2 (hsub e (List.mem_cons_self _ _)),
      ih (row0 + 1) (fun q hq => hsub q (List.mem_cons_of_mem _ hq))]
    rfl

/-- C4 (amended): writing a reachable store to the spreadsheet issues exactly
the cells of `grid_cells_spec`: sorted languages in header columns 2..N+1,
keys in insertion order from row 2 in column 1, each language's value in its
sorted column — and a (key, lang) pair with no translation is written as the
Python `None` value, not as the empty string. -/
theorem googledocs_write_layout_claim (ops : List TranslationOp) :
    GoogleDocsHandler.write (applyOps ops) = .ok (grid_cells_spec (applyOps ops)) := by
  have hnd : ((applyOps ops).dictionary.map Prod.fst).Nodup :=
    ((invariantCheck_iff _).mp (invariantCheck_applyOps ops)).2.2
  have hsub : ∀ e ∈ (applyOps ops).dictionary,
      assocLookup (applyOps ops).dictionary e.1 = some e.2 := by
    intro e he
    exact assocLookup_of_mem_nodup _ _ _ hnd (by simpa using he)
  rw [GoogleDocsHandler.write, Dictionary.keys,
    write_rows_spec (applyOps ops) (pySorted (applyOps ops).languages) 2
      (applyOps ops).dictionary hsub]
  rfl

def d4cx : Dictionary :=
  applyOps [(chars "k", chars "en", chars "v"), (chars "k2", chars "fr", chars "x")]

def d4cxCells : List Cell :=
  [(1, 2, some (chars "en")), (1, 3, some (chars "fr")),
   (2, 1, some (chars "k")), (2, 2, some (chars "v")), (2, 3, none),
   (3, 1, some (chars "k2")), (3, 2, none), (3, 3, some (chars "x"))]

/-- Counterexample to C4 as stated: the store holding only "k"→en→"v" and
"k2"→fr→"x" has no translation for ("k", "fr"); the cell written at row 2,
column 3 carries Python `None`, not the empty string the claim requires. -/
theorem googledocs_write_none_cell_cx :
    GoogleDocsHandler.write d4cx = .ok d4cxCells ∧
      ((2, 3, (none : Option Str)) ∈ d4cxCells ∧
        (2, 3, some (chars "")) ∉ d4cxCells) := by
  decide

/-! ## Android resource parsing (`AndroidStringsLoader._decode_file_entries`, claim C7)

`stringify.py` lines 203–211.  The input is the `ElementTree` root produced by
`ET.parse`; an element holds its tag, its attribute `dict`, its text (which
`ElementTree` sets to `None` for an element with no text content, e.g.
`<string name="hello"></string>`), and its child elements. -/

inductive XmlElement where
  | mk (tag : Str) (attrib : List (Str × Str)) (text : Option Str)
      (children : List XmlElement)

def XmlElement.attrib : XmlElement → List (Str × Str)
  | .mk _ a _ _ => a

def XmlElement.text : XmlElement → Option Str
  | .mk _ _ t _ => t

def XmlElement.children : XmlElement → List XmlElement
  | .mk _ _ _ c => c

/-- ElementTree `element.get(key)`: attribute lookup, `None` when absent. -/
def XmlElement.get (e : XmlElement) (key : Str) : Option Str :=
  assocLookup e.attrib key

/-- The `for child in root` loop: append `(child.get('name'), child.text)` for
each top-level child. -/
def AndroidStringsLoader.decode_file_entries_loop :
    List XmlElement → List (Option Str × Option Str)
  | [] => []
  | child :: rest =>
    (child.get (chars "name"), child.text) ::
      AndroidStringsLoader.decode_file_entries_loop rest

/-- `AndroidStringsLoader._decode_file_entries` applied to a parsed document. -/
def AndroidStringsLoader.decode_file_entries (root : XmlElement) :
    List (Option Str × Option Str) :=
  AndroidStringsLoader.decode_file_entries_loop root.children

/-- The `ElementTree` of `<resources><string name="hello"></string></resources>`:
the empty `string` element has `text = None` (not the empty string). -/
def helloDoc : XmlElement :=
  .mk (chars "resources") [] none
    [.mk (chars "string") [(chars "name", chars "hello")] none []]

/-- C7 (amended): each top-level child yields one entry keyed by its `name`
attribute with its text content as the value, but absent text yields the
Python `None` value, not the empty string; in particular the document
`<resources><string name="hello"></string></resources>` parses to the single
entry ("hello", None) without error. -/
theorem android_parse_entries_claim (root : XmlElement) :
    AndroidStringsLoader.decode_file_entries root
        = root.children.map (fun c => (c.get (chars "name"), c.text)) ∧
      AndroidStringsLoader.decode_file_entries helloDoc
        = [(some (chars "hello"), none)] := by
  refine ⟨?_, by decide⟩
  rw [AndroidStringsLoader.decode_file_entries]
  induction root.children with
  | nil => rfl
  | cons c cs ih =>
    rw [AndroidStringsLoader.decode_file_entries_loop, List.map_cons, ih]

/-- Counterexample to C7 as stated: the empty element's entry carries `None`,
not the empty string. -/
theorem android_parse_empty_text_cx :
    AndroidStringsLoader.decode_file_entries helloDoc
      ≠ [(some (chars "hello"), some (chars ""))] := by
  decide

/-! ## File discovery (`find_files`, claim C10)

`stringify.py` lines 370–383.  The directory tree passed to `os.listdir` /
`os.path.isdir` / `os.path.isfile` is modelled as a finite tree of named
regular files and directories, listed in `os.listdir` order. -/

inductive FSEntry where
  | file (name : Str)
  | dir (name : Str) (entries : List FSEntry)

/-- `os.path.join(path, filename)`. -/
def path_join (p name : Str) : Str := p ++ '/' :: name

mutual

/-- One iteration of the `for filename in os.listdir(path)` body: recurse into
a directory; keep a regular file when `filename_regex and
filename.startswith(filename_regex)` — Python truthiness, so an empty-string
`filename_regex` fails this test — or when `filename_regex is None`. -/
def find_files_entry (filename_regex : Option Str) (path : Str) :
    FSEntry → List Str
  | .file name =>
    match filename_regex with
    | none => [path_join path name]
    | some f => if f ≠ [] ∧ f.isPrefixOf name then [path_join path name] else []
  | .dir name sub => find_files_list filename_regex (path_join path name) sub

def find_files_list (filename_regex : Option Str) (path : Str) :
    List FSEntry → List Str
  | [] => []
  | e :: rest =>
    find_files_entry filename_regex path e ++ find_files_list filename_regex path rest

end

/-- `find_files(path, filename_regex)` over the modelled tree rooted at `path`. -/
def find_files (path : Str) (tree : List FSEntry) (filename_regex : Option Str) :
    List Str :=
  find_files_list filename_regex path tree

mutual

/-- Every regular file under one entry, in traversal order, with its full path
and its own name. -/
def all_files_entry (path : Str) : FSEntry → List (Str × Str)
  | .file name => [(path_join path name, name)]
  | .dir name sub => all_files_list (path_join path name) sub

def all_files_list (path : Str) : List FSEntry → List (Str × Str)
  | [] => []
  | e :: rest => all_files_entry path e ++ all_files_list path rest

end

mutual

theorem find_files_entry_filter (f : Str) (hf : f ≠ []) (path : Str) :
    (e : FSEntry) →
      find_files_entry (some f) path e
        = ((all_files_entry path e).filter (fun pr => f.isPrefixOf pr.2)).map Prod.fst
  | .file name => by
    by_cases hp : f.isPrefixOf name = true
    · simp [find_files_entry, all_files_entry, hf, hp]
    · simp [find_files_entry, all_files_entry, hf, hp]
  | .dir name sub => find_files_list_filter f hf (path_join path name) sub

theorem find_files_list_filter (f : Str) (hf : f ≠ []) (path : Str) :
    (es : List FSEntry) →
      find_files_list (some f) path es
        = ((all_files_list path es).filter (fun pr => f.isPrefixOf pr.2)).map Prod.fst
  | [] => rfl
  | e :: rest => by
    rw [find_files_list, find_files_entry_filter f hf path e,
      find_files_list_filter f hf path rest, all_files_list, List.filter_append,
      List.map_append]

end

mutual

theorem find_files_entry_none (path : Str) :
    (e : FSEntry) →
      find_files_entry none path e = (all_files_entry path e).map Prod.fst
  | .file _ => rfl
  | .dir name sub => find_files_list_none (path_join path name) sub

theorem find_files_list_none (path : Str) :
    (es : List FSEntry) →
      find_files_list none path es = (all_files_list path es).map Prod.fst
  | [] => rfl
  | e :: rest => by
    rw [find_files_list, find_files_entry_none path e, find_files_list_none path rest,
      all_files_list, List.map_append]

end

/-- C10 (amended): with a non-empty configured filename, `find_files` returns
exactly the regular files whose own name starts with that string (prefix
matching, not exact matching), in traversal order; with no filename configured
it returns every regular file. -/
theorem find_files_claim (path : Str) (tree : List FSEntry) (f : Str)
    (hf : f ≠ []) :
    find_files path tree (some f)
        = ((all_files_list path tree).filter (fun pr => f.isPrefixOf pr.2)).map Prod.fst ∧
      find_files path tree none = (all_files_list path tree).map Prod.fst :=
  ⟨find_files_list_filter f hf path tree, find_files_list_none path tree⟩

def tree10 : List FSEntry :=
  [.file (chars "strings.xml"),
   .dir (chars "values-fr") [.file (chars "strings.xml.bak")],
   .file (chars "readme")]

/-- Witness for C10: with the default filename "strings.xml" the file
"strings.xml.bak" inside a subdirectory is also picked up; with none, every
regular file is returned. -/
theorem find_files_claim_witness :
    find_files (chars ".") tree10 (some (chars "strings.xml"))
        = [chars "./strings.xml", chars "./values-fr/strings.xml.bak"] ∧
      find_files (chars ".") tree10 none
        = [chars "./strings.xml", chars "./values-fr/strings.xml.bak",
           chars "./readme"] := by
  have h := find_files_claim (chars ".") tree10 (chars "strings.xml") (by decide)
  exact ⟨h.1.trans (by decide), h.2.trans (by decide)⟩

/-- Counterexample to C10 as stated: with the empty string as the configured
filename every file name has it as a prefix, yet `find_files` returns nothing
(Python's `if filename_regex` truthiness test fails on the empty string and
the `elif filename_regex is None` branch fails as well). -/
theorem find_files_empty_filename_cx :
    find_files (chars ".") [.file (chars "a.txt")] (some (chars "")) = [] ∧
      (chars "").isPrefixOf (chars "a.txt") = true := by
  decide

/-! ## Greedy regex matching (shared by claims C5, C6, C1)

Python `re` pieces are greedy with backtracking: a greedy piece first tries to
consume as much as possible and gives characters back only when the rest of
the pattern cannot match.  `tryFrom f n` models this: it tries the candidate
consumption lengths `n, n-1, ..., 0` in order and keeps the first success.
`.` does not match a newline, so every stretch consumed by `.*` must be
newline-free. -/

/-- Try `f n`, then `f (n-1)`, ..., `f 0`; first success wins. -/
def tryFrom (f : Nat → Option γ) : Nat → Option γ
  | 0 => f 0
  | n + 1 =>
    match f (n + 1) with
    | some x => some x
    | none => tryFrom f n

theorem tryFrom_eq_some (f : Nat → Option γ) (n j : Nat) (y : γ) (hj : j ≤ n)
    (hy : f j = some y) (hnone : ∀ i, j < i → i ≤ n → f i = none) :
    tryFrom f n = some y := by
  induction n with
  | zero =>
    have : j = 0 := Nat.le_zero.mp hj
    subst this
    exact hy
  | succ n ih =>
    by_cases hjn : j = n + 1
    · subst hjn
      simp only [tryFrom, hy]
    · have hj' : j ≤ n := Nat.lt_succ_iff.mp (lt_of_le_of_ne hj hjn)
      have htop : f (n + 1) = none :=
        hnone (n + 1) (Nat.lt_succ_of_le hj') (le_refl _)
      simp only [tryFrom, htop]
      exact ih hj' (fun i h1 h2 => hnone i h1 (Nat.le_succ_of_le h2))

theorem tryFrom_eq_none (f : Nat → Option γ) (n : Nat)
    (h : ∀ i ≤ n, f i = none) : tryFrom f n = none := by
  induction n with
  | zero => exact h 0 (le_refl _)
  | succ n ih =>
    simp only [tryFrom, h (n + 1) (le_refl _)]
    exact ih (fun i hi => h i (Nat.le_succ_of_le hi))

/-- No newline among the characters (what a `.*` may consume). -/
def noNl (s : Str) : Bool := s.all (fun c => !(c = '\n'))

theorem noNl_take (s : Str) (d : Nat) (h : noNl s = true) : noNl (s.take d) = true := by
  rw [noNl, List.all_eq_true] at h ⊢
  exact fun c hc => h c (List.take_subset d s hc)

/-- The greedy `.*` before a literal: the largest `d` such that the first `d`
characters are newline-free and the literal follows at position `d`. -/
def dotStarLitMatch (lit s : Str) : Option Nat :=
  tryFrom
    (fun d => if noNl (s.take d) ∧ lit.isPrefixOf (s.drop d) then some d else none)
    s.length

/-- Independent characterization used by the amended claims: the position of
the last occurrence of `lit` in `s`, by plain structural recursion. -/
def lastOccIdx (lit : Str) : Str → Option Nat
  | [] => if lit.isPrefixOf ([] : Str) then some 0 else none
  | c :: rest =>
    match lastOccIdx lit rest with
    | some j => some (j + 1)
    | none => if lit.isPrefixOf (c :: rest) then some 0 else none

theorem isPrefixOf_nil_of_ne (lit : Str) (hlit : lit ≠ []) :
    lit.isPrefixOf ([] : Str) = false := by
  cases lit with
  | nil => exact absurd rfl hlit
  | cons c cs => rfl

theorem lastOccIdx_spec (lit : Str) (hlit : lit ≠ []) (s : Str) :
    (∀ j, lastOccIdx lit s = some j →
        (j ≤ s.length ∧ lit.isPrefixOf (s.drop j) = true ∧
          ∀ i, j < i → lit.isPrefixOf (s.drop i) = false)) ∧
      (lastOccIdx lit s = none → ∀ i, lit.isPrefixOf (s.drop i) = false) := by
  induction s with
  | nil =>
    constructor
    · intro j hj
      rw [lastOccIdx, isPrefixOf_nil_of_ne lit hlit] at hj
      cases hj
    · intro _ i
      rw [List.drop_nil]
      exact isPrefixOf_nil_of_ne lit hlit
  | cons c rest ih =>
    constructor
    · intro j hj
      cases hrest : lastOccIdx lit rest with
      | some j' =>
        rw [lastOccIdx, hrest] at hj
        obtain ⟨hle, hpre, hmax⟩ := ih.1 j' hrest
        cases hj
        refine ⟨Nat.succ_le_succ hle, ?_, ?_⟩
        · rw [List.drop_succ_cons]
          exact hpre
        · intro i hi
          cases i with
          | zero => cases hi
          | succ i' =>
            rw [List.drop_succ_cons]
            exact hmax i' (Nat.lt_of_succ_lt_succ hi)
      | none =>
        rw [lastOccIdx, hrest] at hj
        by_cases hp : lit.isPrefixOf (c :: rest) = true
        · rw [if_pos hp] at hj
          cases hj
          refine ⟨Nat.zero_le _, hp, ?_⟩
          intro i hi
          cases i with
          | zero => cases hi
          | succ i' =>
            rw [List.drop_succ_cons]
            exact ih.2 hrest i'
        · rw [if_neg hp] at hj
          cases hj
    · intro hnone i
      cases hrest : lastOccIdx lit rest with
      | some j' =>
        rw [lastOccIdx, hrest] at hnone
        cases hnone
      | none =>
        rw [lastOccIdx, hrest] at hnone
        by_cases hp : lit.isPrefixOf (c :: rest) = true
        · rw [if_pos hp] at hnone
          cases hnone
        · cases i with
          | zero => exact Bool.not_eq_true _ ▸ (by simpa using hp)
          | succ i' =>
            rw [List.drop_succ_cons]
            exact ih.2 hrest i'

/-- On newline-free input the greedy `.*`-then-literal match settles exactly
on the last occurrence of the literal. -/
theorem dotStarLitMatch_eq_lastOccIdx (lit s : Str) (hlit : lit ≠ [])
    (hnl : noNl s = true) : dotStarLitMatch lit s = lastOccIdx lit s := by
  cases hocc : lastOccIdx lit s with
  | some j =>
    obtain ⟨hle, hpre, hmax⟩ := (lastOccIdx_spec lit hlit s).1 j hocc
    refine tryFrom_eq_some _ _ j j hle ?_ ?_
    · rw [if_pos ⟨noNl_take s j hnl, hpre⟩]
    · intro i h1 _
      rw [if_neg]
      intro hand
      rw [hmax i h1] at hand
      exact Bool.false_ne_true hand.2
  | none =>
    refine tryFrom_eq_none _ _ ?_
    intro i _
    rw [if_neg]
    intro hand
    rw [(lastOccIdx_spec lit hlit s).2 hocc i] at hand
    exact Bool.false_ne_true hand.2

/-! ## Language detection from file paths (claims C5, C6) -/

/-- The character class `[-a-z]` of the Android regex. -/
def androidClassChar (c : Char) : Bool := c = '-' || ('a' ≤ c && c ≤ 'z')

/-- `AndroidStringsLoader._decode_filepath_language` (lines 195–201):
`re.match(r'.*values([-a-z]{0,3})', filepath)`.  The greedy `.*` settles on
the last `values` occurrence; the greedy group then takes up to 3 leading
`[-a-z]` characters; a 3-character group (`-xx`) is cut to its last 2 by
`postfix[-2:]`.  When the regex does not match, the function reaches
`return postfix` with that local never assigned, so the Python runtime raises
`UnboundLocalError` (not the program's `NotFoundException`). -/
def AndroidStringsLoader.decode_filepath_language (filepath : Str) :
    Except PyError Str :=
  match dotStarLitMatch (chars "values") filepath with
  | some d =>
    let sfx := ((filepath.drop (d + 6)).takeWhile androidClassChar).take 3
    .ok (if sfx.length = 3 then sfx.drop 1 else sfx)
  | none => .error .unboundLocalError

/-- The language resolution step of `AndroidStringsLoader.execute` (lines
184–189): decode the path, then substitute the caller's default language
(`'en'` unless overridden) when the stripped code is empty. -/
def AndroidStringsLoader.language_for (filepath default_language : Str) :
    Except PyError Str := do
  let language ← AndroidStringsLoader.decode_filepath_language filepath
  pure (if (pyStrip language).length = 0 then default_language else language)

/-- The suffix the Android decoder extracts once the last `values` occurrence
sits at index `d` (stated independently, for the amended claim). -/
def androidSuffix (p : Str) (d : Nat) : Str :=
  let run := ((p.drop (d + 6)).takeWhile androidClassChar).take 3
  if run.length = 3 then run.drop 1 else run

/-- C5 (amended): on a newline-free path containing `values`, the decoder
returns the up-to-3-character `[-a-z]` suffix after the last `values`
occurrence, truncated to its last 2 characters when it has 3 (a region
qualifier); `execute` substitutes the caller default when the stripped suffix
is empty.  On a path with no `values` occurrence the decoder raises
`UnboundLocalError` — a crash, not the `NotFoundException` (LanguageNotDetected)
of the claim — which no caller catches. -/
theorem android_language_detection_claim (p dflt : Str) (hnl : noNl p = true) :
    (∀ d, lastOccIdx (chars "values") p = some d →
        AndroidStringsLoader.decode_filepath_language p = .ok (androidSuffix p d) ∧
          ((pyStrip (androidSuffix p d)).length = 0 →
            AndroidStringsLoader.language_for p dflt = .ok dflt)) ∧
      (lastOccIdx (chars "values") p = none →
        AndroidStringsLoader.decode_filepath_language p = .error .unboundLocalError) := by
  have heq : dotStarLitMatch (chars "values") p = lastOccIdx (chars "values") p :=
    dotStarLitMatch_eq_lastOccIdx _ _ (by decide) hnl
  constructor
  · intro d hd
    have hdec : AndroidStringsLoader.decode_filepath_language p = .ok (androidSuffix p d) := by
      rw [AndroidStringsLoader.decode_filepath_language, heq, hd]
      rfl
    refine ⟨hdec, fun hempty => ?_⟩
    rw [AndroidStringsLoader.language_for, hdec]
    show Except.ok _ = _
    rw [if_pos hempty]
  · intro hd
    rw [AndroidStringsLoader.decode_filepath_language, heq, hd]

/-- Witness for C5 at the spec's example paths and at a `values`-free path. -/
theorem android_language_detection_claim_witness :
    AndroidStringsLoader.decode_filepath_language (chars "/res/values-fr/strings.xml")
        = .ok (chars "fr") ∧
      AndroidStringsLoader.decode_filepath_language (chars "/res/values-fr-rCA/strings.xml")
        = .ok (chars "fr") ∧
      AndroidStringsLoader.language_for (chars "/res/values/strings.xml") (chars "en")
        = .ok (chars "en") ∧
      AndroidStringsLoader.decode_filepath_language (chars "/foo/strings.xml")
        = .error .unboundLocalError := by
  have h1 := ((android_language_detection_claim
    (chars "/res/values-fr/strings.xml") (chars "en") (by decide)).1 5 (by decide)).1
  have h2 := ((android_language_detection_claim
    (chars "/res/values-fr-rCA/strings.xml") (chars "en") (by decide)).1 5 (by decide)).1
  have h3 := (android_language_detection_claim
    (chars "/res/values/strings.xml") (chars "en") (by decide)).1 5 (by decide)
  have h4 := (android_language_detection_claim
    (chars "/foo/strings.xml") (chars "en") (by decide)).2 (by decide)
  refine ⟨?_, ?_, h3.2 (by decide), h4⟩
  · rw [h1]
    decide
  · rw [h2]
    decide

/-- Counterexample to C5 as stated: on a path with no `values` segment the
decoder does not fail with the program's `NotFoundException`
(LanguageNotDetected); it hits an unassigned local and raises
`UnboundLocalError`. -/
theorem android_language_unbound_cx :
    AndroidStringsLoader.decode_filepath_language (chars "/foo/strings.xml")
        ≠ .error .notFoundException ∧
      AndroidStringsLoader.decode_filepath_language (chars "/foo/strings.xml")
        = .error .unboundLocalError := by
  decide

/-- `IOSStringsLoader._decode_filepath_language` (lines 232–240):
`re.match(r"(.*)\.lproj", path)`.  The greedy group captures everything before
the last `.lproj` occurrence — the whole path prefix, directories included —
and `prefix[-2:]` keeps its last 2 characters when it is longer than 2.
Without a match the function raises `NotFoundException`. -/
def IOSStringsLoader.decode_filepath_language (path : Str) : Except PyError Str :=
  match dotStarLitMatch (chars ".lproj") path with
  | some d =>
    let pre := path.take d
    .ok (if pre.length > 2 then pre.drop (pre.length - 2) else pre)
  | none => .error .notFoundException

/-- Last 2 characters when longer than 2, else the whole string
(`prefix[-2:]` guarded by `len(prefix) > 2`). -/
def lastTwoOrAll (s : Str) : Str :=
  if s.length > 2 then s.drop (s.length - 2) else s

/-- C6 (amended): on a newline-free path in which `.lproj` occurs, the decoder
returns the final 2 characters of the whole path portion before the last
`.lproj` occurrence (the full prefix, directories included — this agrees with
the final 2 characters of the segment's name only when that name has at least
2 characters, and `.lproj` need not end a directory segment at all); it fails
with `NotFoundException` (LanguageNotDetected) exactly when `.lproj` occurs
nowhere in the path. -/
theorem ios_language_detection_claim (p : Str) (hnl : noNl p = true) :
    (∀ d, lastOccIdx (chars ".lproj") p = some d →
        IOSStringsLoader.decode_filepath_language p = .ok (lastTwoOrAll (p.take d))) ∧
      (lastOccIdx (chars ".lproj") p = none →
        IOSStringsLoader.decode_filepath_language p = .error .notFoundException) := by
  have heq : dotStarLitMatch (chars ".lproj") p = lastOccIdx (chars ".lproj") p :=
    dotStarLitMatch_eq_lastOccIdx _ _ (by decide) hnl
  constructor
  · intro d hd
    rw [IOSStringsLoader.decode_filepath_language, heq, hd]
    rfl
  · intro hd
    rw [IOSStringsLoader.decode_filepath_language, heq, hd]

/-- Witness for C6 at the spec's example paths and at a `.lproj`-free path. -/
theorem ios_language_detection_claim_witness :
    IOSStringsLoader.decode_filepath_language (chars "/Proj/fr.lproj/Localizable.strings")
        = .ok (chars "fr") ∧
      IOSStringsLoader.decode_filepath_language (chars "/Proj/zh-Hans.lproj/Localizable.strings")
        = .ok (chars "ns") ∧
      IOSStringsLoader.decode_filepath_language (chars "/Proj/en/Localizable.strings")
        = .error .notFoundException := by
  have h1 := (ios_language_detection_claim
    (chars "/Proj/fr.lproj/Localizable.strings") (by decide)).1 8 (by decide)
  have h2 := (ios_language_detection_claim
    (chars "/Proj/zh-Hans.lproj/Localizable.strings") (by decide)).1 13 (by decide)
  have h3 := (ios_language_detection_claim
    (chars "/Proj/en/Localizable.strings") (by decide)).2 (by decide)
  refine ⟨?_, ?_, h3⟩
  · rw [h1]
    decide
  · rw [h2]
    decide

/-- Counterexample to C6 as stated: for the path "/a.lproj/Localizable.strings"
the `.lproj` segment's name is "a", whose final 2 characters are "a", but the
decoder keeps the last 2 characters of the whole prefix "/a" — including the
directory separator — and returns "/a". -/
theorem ios_short_segment_cx :
    IOSStringsLoader.decode_filepath_language (chars "/a.lproj/Localizable.strings")
        = .ok (chars "/a") ∧
      IOSStringsLoader.decode_filepath_language (chars "/a.lproj/Localizable.strings")
        ≠ .ok (chars "a") := by
  decide

/-! ## iOS `.strings` round trip (claim C1)

The exporter (`export_ios`, lines 479–500) writes one line
`"KEY" = "VALUE";` + newline per non-empty grid row; the importer
(`IOSStringsLoader._decode_file_entries`, lines 242–250) iterates the lines of
the file and keeps `(group 1, group 2)` of every line matching
`re.match(r'"(.*)".*=.*"(.*)";', line)`.  The three greedy `.*`/`(.*)` pieces
and the final `(.*)` backtrack from the longest candidate; each may not
contain a newline; the overall match only needs to cover a prefix of the
line. -/

/-- Does the string start with the given character? -/
def headIs : Str → Char → Bool
  | c :: _, a => c = a
  | [], _ => false

/-- The pattern tail `(.*)";`: the greedy group 2 takes the longest prefix
(newline-free) followed by the literal `";`. -/
def matchTail2 (w : Str) : Option Str :=
  tryFrom
    (fun c =>
      if noNl (w.take c) ∧ headIs (w.drop c) '"' ∧ headIs (w.drop (c + 1)) ';'
      then some (w.take c) else none)
    w.length

/-- The pattern tail `.*"(.*)";`: the greedy `.*` settles on the last `"` from
which the rest of the pattern still matches. -/
def matchQuoteTail (v : Str) : Option Str :=
  tryFrom
    (fun b =>
      if noNl (v.take b) ∧ headIs (v.drop b) '"'
      then matchTail2 (v.drop (b + 1)) else none)
    v.length

/-- The pattern tail `.*=.*"(.*)";`. -/
def matchEqTail (u : Str) : Option Str :=
  tryFrom
    (fun a =>
      if noNl (u.take a) ∧ headIs (u.drop a) '='
      then matchQuoteTail (u.drop (a + 1)) else none)
    u.length

/-- `re.match(r'"(.*)".*=.*"(.*)";', line)`: the line must start with `"`,
then the greedy group 1 settles on the longest newline-free stretch followed
by `"` from which the rest of the pattern matches. -/
def parse_line (s : Str) : Option (Str × Str) :=
  match s with
  | '"' :: t =>
    tryFrom
      (fun k =>
        if noNl (t.take k) ∧ headIs (t.drop k) '"'
        then (matchEqTail (t.drop (k + 1))).map (fun g2 => (t.take k, g2))
        else none)
      t.length
  | _ => none

/-- Python text-mode reading translates `\r\n` and lone `\r` to `\n`
(universal newlines). -/
def univNl : Str → Str
  | [] => []
  | c :: rest =>
    if c = '\r' then
      match rest with
      | [] => ['\n']
      | d :: rest2 =>
        if d = '\n' then '\n' :: univNl rest2 else '\n' :: univNl (d :: rest2)
    else c :: univNl rest

/-- Split at newline characters.  Python's `for line in file` keeps the
trailing `\n` on each line and yields no final empty line; since the pattern
ends at the `;` and `re.match` needs only a prefix, the trailing `\n` never
affects a match, and the extra final `[]` piece here matches no line either
— the two line decompositions produce the same entries. -/
def splitOnNl : Str → List Str
  | [] => [[]]
  | c :: rest =>
    if c = '\n' then [] :: splitOnNl rest
    else
      match splitOnNl rest with
      | [] => [[c]]
      | l :: ls => (c :: l) :: ls

/-- `IOSStringsLoader._decode_file_entries` on the raw file content. -/
def IOSStringsLoader.decode_file_entries (content : Str) : List (Str × Str) :=
  (splitOnNl (univNl content)).filterMap parse_line

/-- One line of `export_ios` (line 495):
`'"{0}" = "{1}";\n'.format(row[0], row[i + 1])` (format fields written
positionally here). -/
def export_ios_line (row : List Str) (i : Nat) : Str :=
  ['"'] ++ row.getD 0 [] ++ ['"', ' ', '=', ' ', '"']
    ++ row.getD (i + 1) [] ++ ['"', ';', '\n']

/-- The per-language body loop of `export_ios` (lines 490–498) for the
language at index `i`: skip rows of length 0, append one line per row. -/
def export_ios_content : List (List Str) → Nat → Str
  | [], _ => []
  | row :: rest, i =>
    if row.length = 0 then export_ios_content rest i
    else export_ios_line row i ++ export_ios_content rest i

theorem noNl_iff (s : Str) : noNl s = true ↔ '\n' ∉ s := by
  rw [noNl, List.all_eq_true]
  constructor
  · intro h hm
    have := h _ hm
    simp at this
  · intro h c hc
    simp only [Bool.not_eq_true']
    rw [decide_eq_false_iff_not]
    intro he
    exact h (he ▸ hc)

theorem headIs_iff_getElem (s : Str) (i : Nat) (c : Char) :
    headIs (s.drop i) c = true ↔ s[i]? = some c := by
  induction s generalizing i with
  | nil =>
    rw [List.drop_nil]
    constructor
    · intro h
      cases h
    · intro h
      cases h
  | cons a t ih =>
    cases i with
    | zero =>
      rw [List.drop_zero, List.getElem?_cons_zero]
      show decide (a = c) = true ↔ _
      rw [decide_eq_true_eq]
      constructor
      · intro h
        rw [h]
      · intro h
        exact Option.some.inj h
    | succ i' =>
      rw [List.drop_succ_cons, List.getElem?_cons_succ]
      exact ih i'

theorem drop_append_ge (x y : Str) (i : Nat) (h : x.length ≤ i) :
    (x ++ y).drop i = y.drop (i - x.length) := by
  rw [List.drop_append_eq_append_drop, List.drop_of_length_le h]
  simp

theorem headIs_append_cases (x tail : Str) (ch : Char) (m : Nat)
    (h : headIs ((x ++ tail).drop m) ch = true) :
    (m < x.length ∧ x[m]? = some ch) ∨
      (x.length ≤ m ∧ headIs (tail.drop (m - x.length)) ch = true) := by
  by_cases hm : m < x.length
  · left
    refine ⟨hm, ?_⟩
    rw [headIs_iff_getElem, List.getElem?_append_left hm] at h
    exact h
  · right
    have hge := Nat.le_of_not_lt hm
    refine ⟨hge, ?_⟩
    rw [drop_append_ge x tail m hge] at h
    exact h

theorem headIs_pair_cases (a b ch : Char) (j : Nat)
    (h : headIs (([a, b] : Str).drop j) ch = true) :
    (j = 0 ∧ a = ch) ∨ (j = 1 ∧ b = ch) := by
  match j with
  | 0 =>
    left
    refine ⟨rfl, ?_⟩
    have : decide (a = ch) = true := h
    exact of_decide_eq_true this
  | 1 =>
    right
    refine ⟨rfl, ?_⟩
    have : decide (b = ch) = true := h
    exact of_decide_eq_true this
  | n + 2 =>
    exfalso
    have hnil : (([a, b] : Str).drop (n + 2)) = [] := by
      rw [List.drop_succ_cons, List.drop_succ_cons, List.drop_nil]
    rw [hnil] at h
    cases h

/-- In `v ++ ['"', ';']` with `v` quote-free, the only `"` sits right after
`v`. -/
theorem quote_pos_unique (v : Str) (hvq : '"' ∉ v) (m : Nat)
    (h : headIs ((v ++ ['"', ';']).drop m) '"' = true) : m = v.length := by
  rcases headIs_append_cases v _ _ m h with ⟨hm, hget⟩ | ⟨hge, htail⟩
  · exact absurd (List.getElem?_mem hget) hvq
  · rcases headIs_pair_cases _ _ _ _ htail with ⟨h0, _⟩ | ⟨h1, hb⟩
    · omega
    · exact absurd hb (by decide)

theorem matchTail2_semi : matchTail2 [';'] = none := by decide

theorem matchEqTail_semi : matchEqTail [';'] = none := by decide

theorem matchTail2_closed (v : Str) (hvq : '"' ∉ v) (hvnl : '\n' ∉ v) :
    matchTail2 (v ++ ['"', ';']) = some v := by
  refine tryFrom_eq_some _ _ v.length v ?_ ?_ ?_
  · simp
  · have h1 : (v ++ ['"', ';']).take v.length = v := List.take_left v _
    have h2 : (v ++ ['"', ';']).drop v.length = ['"', ';'] := List.drop_left v _
    have h3 : (v ++ ['"', ';']).drop (v.length + 1) = [';'] := by
      rw [drop_append_ge _ _ _ (by omega)]
      simp
    rw [if_pos]
    · rw [h1]
    · refine ⟨?_, ?_, ?_⟩
      · rw [h1]
        exact (noNl_iff v).mpr hvnl
      · rw [h2]
        decide
      · rw [h3]
        decide
  · intro i hgt _
    rw [if_neg]
    rintro ⟨-, h2, -⟩
    exact absurd (quote_pos_unique v hvq i h2) (by omega)

theorem matchQuoteTail_none (x : Str) (hq : '"' ∉ x) :
    matchQuoteTail (x ++ ['"', ';']) = none := by
  refine tryFrom_eq_none _ _ ?_
  intro b _
  by_cases hh : headIs ((x ++ ['"', ';']).drop b) '"' = true
  · have hb := quote_pos_unique x hq b hh
    have hdrop : (x ++ ['"', ';']).drop (b + 1) = [';'] := by
      rw [hb, drop_append_ge _ _ _ (by omega)]
      simp
    by_cases hcond : noNl ((x ++ ['"', ';']).take b) = true
    · rw [if_pos ⟨hcond, hh⟩, hdrop]
      exact matchTail2_semi
    · rw [if_neg (fun hc => hcond hc.1)]
  · rw [if_neg (fun hc => hh hc.2)]

theorem matchEqTail_none (x : Str) (hq : '"' ∉ x) :
    matchEqTail (x ++ ['"', ';']) = none := by
  refine tryFrom_eq_none _ _ ?_
  intro a _
  by_cases hh : headIs ((x ++ ['"', ';']).drop a) '=' = true
  · rcases headIs_append_cases x _ _ a hh with ⟨hm, _⟩ | ⟨_, htail⟩
    · have hdrop : (x ++ ['"', ';']).drop (a + 1) = x.drop (a + 1) ++ ['"', ';'] :=
        List.drop_append_of_le_length (by omega)
      have hq2 : '"' ∉ x.drop (a + 1) := fun hm2 => hq (List.drop_subset _ _ hm2)
      by_cases hcond : noNl ((x ++ ['"', ';']).take a) = true
      · rw [if_pos ⟨hcond, hh⟩, hdrop]
        exact matchQuoteTail_none _ hq2
      · rw [if_neg (fun hc => hcond hc.1)]
    · rcases headIs_pair_cases _ _ _ _ htail with ⟨_, hc⟩ | ⟨_, hc⟩ <;>
        exact absurd hc (by decide)
  · rw [if_neg (fun hc => hh hc.2)]

theorem matchQuoteTail_closed (v : Str) (hvq : '"' ∉ v) (hvnl : '\n' ∉ v) :
    matchQuoteTail ([' ', '"'] ++ (v ++ ['"', ';'])) = some v := by
  refine tryFrom_eq_some _ _ 1 v ?_ ?_ ?_
  · simp
  · rw [if_pos]
    · show matchTail2 (v ++ ['"', ';']) = some v
      exact matchTail2_closed v hvq hvnl
    · constructor
      · show noNl ([' '] : Str) = true
        decide
      · show headIs ('"' :: (v ++ ['"', ';'])) '"' = true
        rfl
  · intro i hgt _
    by_cases hh : headIs (([' ', '"'] ++ (v ++ ['"', ';'])).drop i) '"' = true
    · rcases headIs_append_cases [' ', '"'] _ _ i hh with ⟨hm, _⟩ | ⟨hge, htail⟩
      · simp only [List.length_cons, List.length_nil] at hm
        omega
      · have hge2 : 2 ≤ i := by simpa using hge
        have hi : i - [' ', '"'].length = v.length := quote_pos_unique v hvq _ htail
        simp only [List.length_cons, List.length_nil] at hi
        have hdrop : (([' ', '"'] ++ (v ++ ['"', ';'])).drop (i + 1)) = [';'] := by
          rw [drop_append_ge _ _ _ (by simp; omega)]
          have he : i + 1 - ([' ', '"'] : Str).length = v.length + 1 := by
            simp only [List.length_cons, List.length_nil]
            omega
          rw [he, drop_append_ge _ _ _ (by omega)]
          simp
        by_cases hcond : noNl (([' ', '"'] ++ (v ++ ['"', ';'])).take i) = true
        · rw [if_pos ⟨hcond, hh⟩, hdrop]
          exact matchTail2_semi
        · rw [if_neg (fun hc => hcond hc.1)]
    · rw [if_neg (fun hc => hh hc.2)]

theorem matchEqTail_closed (v : Str) (hvq : '"' ∉ v) (hvnl : '\n' ∉ v) :
    matchEqTail ([' ', '=', ' ', '"'] ++ (v ++ ['"', ';'])) = some v := by
  refine tryFrom_eq_some _ _ 1 v ?_ ?_ ?_
  · simp
  · rw [if_pos]
    · show matchQuoteTail ([' ', '"'] ++ (v ++ ['"', ';'])) = some v
      exact matchQuoteTail_closed v hvq hvnl
    · constructor
      · show noNl ([' '] : Str) = true
        decide
      · show headIs ('=' :: ' ' :: '"' :: (v ++ ['"', ';'])) '=' = true
        rfl
  · intro i hgt _
    by_cases hh : headIs (([' ', '=', ' ', '"'] ++ (v ++ ['"', ';'])).drop i) '=' = true
    · rcases headIs_append_cases [' ', '=', ' ', '"'] _ _ i hh with ⟨hm, hget⟩ | ⟨hge, htail⟩
      · exfalso
        simp only [List.length_cons, List.length_nil] at hm
        have h2 : i = 2 ∨ i = 3 := by omega
        rcases h2 with rfl | rfl
        · rw [show (([' ', '=', ' ', '"'] : Str)[2]? ) = some ' ' from rfl] at hget
          exact absurd (Option.some.inj hget) (by decide)
        · rw [show (([' ', '=', ' ', '"'] : Str)[3]? ) = some '"' from rfl] at hget
          exact absurd (Option.some.inj hget) (by decide)
      · have hge2 : 4 ≤ i := by simpa using hge
        have hi4 : i - ([' ', '=', ' ', '"'] : Str).length = i - 4 := by
          simp only [List.length_cons, List.length_nil]
        rw [hi4] at htail
        rcases headIs_append_cases v _ _ (i - 4) htail with ⟨hm2, _⟩ | ⟨_, htail2⟩
        · have hdrop : (([' ', '=', ' ', '"'] ++ (v ++ ['"', ';'])).drop (i + 1))
              = v.drop (i - 3) ++ ['"', ';'] := by
            rw [drop_append_ge _ _ _ (by simp; omega)]
            have he : i + 1 - ([' ', '=', ' ', '"'] : Str).length = i - 3 := by
              simp only [List.length_cons, List.length_nil]
              omega
            rw [he, List.drop_append_of_le_length (by omega)]
          have hq2 : '"' ∉ v.drop (i - 3) := fun hm3 => hvq (List.drop_subset _ _ hm3)
          by_cases hcond :
              noNl (([' ', '=', ' ', '"'] ++ (v ++ ['"', ';'])).take i) = true
          · rw [if_pos ⟨hcond, hh⟩, hdrop]
            exact matchQuoteTail_none _ hq2
          · rw [if_neg (fun hc => hcond hc.1)]
        · rcases headIs_pair_cases _ _ _ _ htail2 with ⟨_, hc⟩ | ⟨_, hc⟩ <;>
            exact absurd hc (by decide)
    · rw [if_neg (fun hc => hh hc.2)]

theorem drop_append_length_add (x w : Str) (n : Nat) :
    (x ++ w).drop (x.length + n) = w.drop n := by
  rw [drop_append_ge _ _ _ (by omega)]
  congr 1
  omega

/-- Beyond the key, the only `"` positions in the line tail are the two fixed
quotes around the value and the closing quote — regardless of any quotes
inside the key itself, which all sit at positions below `k.length`. -/
theorem t_quote_cases (k v : Str) (hvq : '"' ∉ v) (i : Nat) (hgt : k.length < i)
    (h : headIs ((k ++ (['"', ' ', '=', ' ', '"'] ++ (v ++ ['"', ';']))).drop i) '"'
      = true) :
    i = k.length + 4 ∨ i = k.length + 5 + v.length := by
  rcases headIs_append_cases k _ _ i h with ⟨hm, _⟩ | ⟨hge, htail⟩
  · omega
  · rcases headIs_append_cases ['"', ' ', '=', ' ', '"'] _ _ (i - k.length) htail
      with ⟨hm, hget⟩ | ⟨hge2, htail2⟩
    · simp only [List.length_cons, List.length_nil] at hm
      have h5 : i - k.length = 1 ∨ i - k.length = 2 ∨
          i - k.length = 3 ∨ i - k.length = 4 := by omega
      rcases h5 with he | he | he | he <;> rw [he] at hget
      · exact absurd hget (by decide)
      · exact absurd hget (by decide)
      · exact absurd hget (by decide)
      · left
        omega
    · have hq := quote_pos_unique v hvq _ htail2
      simp only [List.length_cons, List.length_nil] at hge2 hq
      right
      omega

/-- An exported line parses back to its own (key, value) pair.  The key may
contain double quotes: every larger group-1 candidate (a quote of the value
delimiters or the closing quote) leaves a tail on which the rest of the
pattern cannot match, so backtracking settles on the true key boundary.  Only
the value must be quote-free. -/
theorem parse_line_closed (k v : Str) (hknl : '\n' ∉ k)
    (hvq : '"' ∉ v) (hvnl : '\n' ∉ v) :
    parse_line ('"' :: (k ++ (['"', ' ', '=', ' ', '"'] ++ (v ++ ['"', ';']))))
      = some (k, v) := by
  show tryFrom _ (k ++ (['"', ' ', '=', ' ', '"'] ++ (v ++ ['"', ';']))).length
      = some (k, v)
  refine tryFrom_eq_some _ _ k.length (k, v) ?_ ?_ ?_
  · simp
  · rw [if_pos]
    · have hdrop1 :=
        drop_append_length_add k (['"', ' ', '=', ' ', '"'] ++ (v ++ ['"', ';'])) 1
      rw [hdrop1]
      show (matchEqTail ([' ', '=', ' ', '"'] ++ (v ++ ['"', ';']))).map
          (fun g2 => ((k ++ (['"', ' ', '=', ' ', '"'] ++ (v ++ ['"', ';']))).take
            k.length, g2)) = some (k, v)
      rw [matchEqTail_closed v hvq hvnl, List.take_left]
      rfl
    · constructor
      · rw [List.take_left]
        exact (noNl_iff k).mpr hknl
      · rw [List.drop_left]
        rfl
  · intro i hgt _
    by_cases hh : headIs
        ((k ++ (['"', ' ', '=', ' ', '"'] ++ (v ++ ['"', ';']))).drop i) '"' = true
    · rcases t_quote_cases k v hvq i hgt hh with he | he
      · subst he
        have hdrop5 : (k ++ (['"', ' ', '=', ' ', '"'] ++ (v ++ ['"', ';']))).drop
            (k.length + 4 + 1) = v ++ ['"', ';'] := by
          rw [show k.length + 4 + 1 = k.length + 5 by omega,
            drop_append_length_add k _ 5]
          rfl
        by_cases hcond : noNl
            ((k ++ (['"', ' ', '=', ' ', '"'] ++ (v ++ ['"', ';']))).take
              (k.length + 4)) = true
        · rw [if_pos ⟨hcond, hh⟩, hdrop5, matchEqTail_none v hvq]
          rfl
        · rw [if_neg (fun hc => hcond hc.1)]
      · subst he
        have hdropEnd : (k ++ (['"', ' ', '=', ' ', '"'] ++ (v ++ ['"', ';']))).drop
            (k.length + 5 + v.length + 1) = [';'] := by
          rw [show k.length + 5 + v.length + 1 = k.length + (6 + v.length) by omega,
            drop_append_length_add k _ (6 + v.length),
            show (6 + v.length) = ((['"', ' ', '=', ' ', '"'] : Str).length
              + (1 + v.length)) by simp; omega,
            drop_append_length_add (['"', ' ', '=', ' ', '"'] : Str) _ (1 + v.length),
            show 1 + v.length = v.length + 1 by omega,
            drop_append_length_add v (['"', ';'] : Str) 1]
          rfl
        by_cases hcond : noNl
            ((k ++ (['"', ' ', '=', ' ', '"'] ++ (v ++ ['"', ';']))).take
              (k.length + 5 + v.length)) = true
        · rw [if_pos ⟨hcond, hh⟩, hdropEnd, matchEqTail_semi]
          rfl
        · rw [if_neg (fun hc => hcond hc.1)]
    · rw [if_neg (fun hc => hh hc.2)]

theorem univNl_eq_self (s : Str) (h : '\r' ∉ s) : univNl s = s := by
  induction s with
  | nil => rfl
  | cons c rest ih =>
    have hc : ¬(c = '\r') := fun he => h (he ▸ List.mem_cons_self _ _)
    rw [univNl.eq_def]
    simp only [hc, if_false]
    rw [ih (fun hm => h (List.mem_cons_of_mem _ hm))]

theorem splitOnNl_append (x rest : Str) (hx : '\n' ∉ x) :
    splitOnNl (x ++ '\n' :: rest) = x :: splitOnNl rest := by
  induction x with
  | nil =>
    show splitOnNl ('\n' :: rest) = [] :: splitOnNl rest
    rw [splitOnNl, if_pos rfl]
  | cons c x' ih =>
    have hc : ¬(c = '\n') := fun he => hx (he ▸ List.mem_cons_self _ _)
    rw [List.cons_append, splitOnNl, if_neg hc,
      ih (fun hm => hx (List.mem_cons_of_mem _ hm))]

theorem not_mem_append (c : Char) (x y : Str) (hx : c ∉ x) (hy : c ∉ y) :
    c ∉ x ++ y := by
  intro h
  rcases List.mem_append.mp h with h | h
  · exact hx h
  · exact hy h

theorem line_body_not_mem (c : Char) (k v : Str) (hck : c ∉ k) (hcv : c ∉ v)
    (hc1 : ¬c = '"') (hc2 : ¬c = ' ') (hc3 : ¬c = '=') (hc4 : ¬c = ';') :
    c ∉ ('"' :: (k ++ (['"', ' ', '=', ' ', '"'] ++ (v ++ ['"', ';'])))) := by
  intro h
  rcases List.mem_cons.mp h with h | h
  · exact hc1 h
  · rcases List.mem_append.mp h with h | h
    · exact hck h
    · rcases List.mem_append.mp h with h | h
      · simp only [List.mem_cons, List.not_mem_nil, or_false] at h
        rcases h with h | h | h | h | h
        exacts [hc1 h, hc2 h, hc3 h, hc2 h, hc1 h]
      · rcases List.mem_append.mp h with h | h
        · exact hcv h
        · simp only [List.mem_cons, List.not_mem_nil, or_false] at h
          rcases h with h | h
          exacts [hc1 h, hc4 h]

theorem export_line_eq (k v : Str) :
    export_ios_line [k, v] 0 =
      ('"' :: (k ++ (['"', ' ', '=', ' ', '"'] ++ (v ++ ['"', ';'])))) ++ ['\n'] := by
  simp [export_ios_line]

theorem export_content_no_cr (pairs : List (Str × Str))
    (h : ∀ pr ∈ pairs, '\r' ∉ pr.1 ∧ '\r' ∉ pr.2) :
    '\r' ∉ export_ios_content (pairs.map (fun pr => [pr.1, pr.2])) 0 := by
  induction pairs with
  | nil => simp [export_ios_content]
  | cons pr rest ih =>
    rw [List.map_cons,
      show export_ios_content ([pr.1, pr.2] :: rest.map (fun q => [q.1, q.2])) 0
        = export_ios_line [pr.1, pr.2] 0
          ++ export_ios_content (rest.map (fun q => [q.1, q.2])) 0 from by
        rw [export_ios_content]
        exact if_neg (by simp)]
    refine not_mem_append _ _ _ ?_ (ih (fun q hq => h q (List.mem_cons_of_mem _ hq)))
    rw [export_line_eq]
    refine not_mem_append _ _ _ ?_ (by decide)
    exact line_body_not_mem '\r' pr.1 pr.2 (h pr (List.mem_cons_self _ _)).1
      (h pr (List.mem_cons_self _ _)).2 (by decide) (by decide) (by decide) (by decide)

theorem filterMap_split_encode (pairs : List (Str × Str))
    (h : ∀ pr ∈ pairs, '\n' ∉ pr.1 ∧ ('"' ∉ pr.2 ∧ '\n' ∉ pr.2)) :
    (splitOnNl (export_ios_content (pairs.map (fun pr => [pr.1, pr.2])) 0)).filterMap
      parse_line = pairs := by
  induction pairs with
  | nil => rfl
  | cons pr rest ih =>
    rw [List.map_cons,
      show export_ios_content ([pr.1, pr.2] :: rest.map (fun q => [q.1, q.2])) 0
        = export_ios_line [pr.1, pr.2] 0
          ++ export_ios_content (rest.map (fun q => [q.1, q.2])) 0 from by
        rw [export_ios_content]
        exact if_neg (by simp),
      export_line_eq, List.append_assoc,
      show (['\n'] : Str) ++ export_ios_content (rest.map (fun q => [q.1, q.2])) 0
        = '\n' :: export_ios_content (rest.map (fun q => [q.1, q.2])) 0 from rfl,
      splitOnNl_append _ _
        (line_body_not_mem '\n' pr.1 pr.2 (h pr (List.mem_cons_self _ _)).1
          (h pr (List.mem_cons_self _ _)).2.2 (by decide) (by decide) (by decide)
          (by decide)),
      List.filterMap_cons,
      parse_line_closed pr.1 pr.2 (h pr (List.mem_cons_self _ _)).1
        (h pr (List.mem_cons_self _ _)).2.1
        (h pr (List.mem_cons_self _ _)).2.2,
      ih (fun q hq => h q (List.mem_cons_of_mem _ hq))]

/-- C1 (amended): exporting any finite list of (key, value) pairs for a single
language as an iOS `.strings` body and parsing the body back reproduces the
pairs exactly, in order, provided no key contains a newline or carriage
return and no value contains a double quote, newline or carriage return.
A double quote inside a value breaks the round trip, but a double quote
inside a key is harmless: backtracking still finds the true key boundary. -/
theorem ios_roundtrip_claim (pairs : List (Str × Str))
    (h : ∀ pr ∈ pairs, ('\n' ∉ pr.1 ∧ '\r' ∉ pr.1) ∧
        ('"' ∉ pr.2 ∧ '\n' ∉ pr.2 ∧ '\r' ∉ pr.2)) :
    IOSStringsLoader.decode_file_entries
      (export_ios_content (pairs.map (fun pr => [pr.1, pr.2])) 0) = pairs := by
  rw [IOSStringsLoader.decode_file_entries,
    univNl_eq_self _
      (export_content_no_cr pairs
        (fun pr hpr => ⟨(h pr hpr).1.2, (h pr hpr).2.2.2⟩))]
  exact filterMap_split_encode pairs
    (fun pr hpr => ⟨(h pr hpr).1.1,
      ⟨(h pr hpr).2.1, (h pr hpr).2.2.1⟩⟩)

/-- Witness for C1 at a concrete pair list, including a key containing a
double quote and an empty value. -/
theorem ios_roundtrip_claim_witness :
    IOSStringsLoader.decode_file_entries
      (export_ios_content
        ([(chars "he\"llo", chars "Bonjour"), (chars "key2", chars "")].map
          (fun pr => [pr.1, pr.2])) 0)
      = [(chars "he\"llo", chars "Bonjour"), (chars "key2", chars "")] :=
  ios_roundtrip_claim [(chars "he\"llo", chars "Bonjour"), (chars "key2", chars "")]
    (by decide)

/-- Counterexample to C1 as stated: a double quote inside a value is written
verbatim, and the lenient line regex then backtracks to the inner quote — the
pair ("k", "a\"b") comes back as ("k", "b"). -/
theorem ios_roundtrip_quote_cx :
    IOSStringsLoader.decode_file_entries
        (export_ios_content [[chars "k", chars "a\"b"]] 0)
      = [(chars "k", chars "b")] ∧
    IOSStringsLoader.decode_file_entries
        (export_ios_content [[chars "k", chars "a\"b"]] 0)
      ≠ [(chars "k", chars "a\"b")] := by
  decide
